import Mathlib

/-!
Verification of the AgentForge example script
(`docs/schemas/examples/agentforge_example.py`).

The script defines typed records (SoftwareProject, Feature, Component),
static example data, and four `async` population functions that issue
sequential awaited calls `add_entity` / `add_relationship` against an
opaque external graph-store client (`graphiti`).

Embedding choices:
* Pydantic models become Lean structures, with the same field defaults.
* Each population function is embedded as the sequence (trace) of external
  graph calls it awaits, in the order the Python code issues them; console
  `print` output is presentation only and is not part of the traces.
* `model_dump(exclude_none=True)` is embedded as a list of
  (field name, optional value) pairs in declaration order, filtered to the
  fields whose value is not `None`.
* Execution of a trace against a client whose calls may fail is modelled by
  `runCalls`; the Python code contains no `try`/`except`, so a raised
  exception aborts the remaining awaited calls of the run.
-/

namespace AgentForgeExample

/-- Enum `ProjectStatus` of the script. -/
inductive ProjectStatus
  | ACTIVE | MAINTENANCE | DEPRECATED | ARCHIVED
  deriving DecidableEq, Repr

/-- The `.value` string of a `ProjectStatus` member. -/
def ProjectStatus.value : ProjectStatus → String
  | .ACTIVE => "active"
  | .MAINTENANCE => "maintenance"
  | .DEPRECATED => "deprecated"
  | .ARCHIVED => "archived"

/-- Enum `FeatureStatus` of the script. -/
inductive FeatureStatus
  | PLANNED | IN_PROGRESS | COMPLETED | DEPRECATED
  deriving DecidableEq, Repr

/-- The `.value` string of a `FeatureStatus` member. -/
def FeatureStatus.value : FeatureStatus → String
  | .PLANNED => "planned"
  | .IN_PROGRESS => "in_progress"
  | .COMPLETED => "completed"
  | .DEPRECATED => "deprecated"

/-- Enum `Priority` of the script. -/
inductive Priority
  | CRITICAL | HIGH | MEDIUM | LOW
  deriving DecidableEq, Repr

/-- The `.value` string of a `Priority` member. -/
def Priority.value : Priority → String
  | .CRITICAL => "critical"
  | .HIGH => "high"
  | .MEDIUM => "medium"
  | .LOW => "low"

/-- Enum `ComponentType` of the script. -/
inductive ComponentType
  | SERVICE | MODULE | LIBRARY | PACKAGE | PLUGIN
  deriving DecidableEq, Repr

/-- The `.value` string of a `ComponentType` member. -/
def ComponentType.value : ComponentType → String
  | .SERVICE => "service"
  | .MODULE => "module"
  | .LIBRARY => "library"
  | .PACKAGE => "package"
  | .PLUGIN => "plugin"

/-- Pydantic model `SoftwareProject`, with the script's field defaults. -/
structure SoftwareProject where
  name : String
  repo_url : Option String := none
  language : Option String := none
  framework : Option String := none
  version : Option String := none
  status : ProjectStatus := ProjectStatus.ACTIVE
  description : Option String := none
  license : Option String := none
  deriving DecidableEq, Repr

/-- Pydantic model `Feature`, with the script's field defaults. -/
structure Feature where
  name : String
  status : FeatureStatus := FeatureStatus.PLANNED
  priority : Option Priority := none
  release_version : Option String := none
  description : Option String := none
  deriving DecidableEq, Repr

/-- Pydantic model `Component`, with the script's field defaults
(`dependencies` defaults to the empty list via `default_factory=list`). -/
structure Component where
  name : String
  type : Option ComponentType := none
  path : Option String := none
  language : Option String := none
  dependencies : List String := []
  description : Option String := none
  deriving DecidableEq, Repr

/-- A value stored in the `metadata` mapping handed to `add_entity`:
either a string (plain string fields and string-valued enum members)
or a list of strings (the `dependencies` field). -/
inductive MetaValue
  | str : String → MetaValue
  | strList : List String → MetaValue
  deriving DecidableEq, Repr

/-- All fields of a `SoftwareProject` in declaration order, as
(field name, optional value) pairs; `none` models Python `None`. -/
def SoftwareProject.fieldsDump (p : SoftwareProject) : List (String × Option MetaValue) :=
  [("name", some (MetaValue.str p.name)),
   ("repo_url", p.repo_url.map MetaValue.str),
   ("language", p.language.map MetaValue.str),
   ("framework", p.framework.map MetaValue.str),
   ("version", p.version.map MetaValue.str),
   ("status", some (MetaValue.str p.status.value)),
   ("description", p.description.map MetaValue.str),
   ("license", p.license.map MetaValue.str)]

/-- Python `project.model_dump(exclude_none=True)`: the fields whose value is not `None`. -/
def SoftwareProject.model_dump_exclude_none (p : SoftwareProject) :
    List (String × Option MetaValue) :=
  p.fieldsDump.filter (fun kv => kv.2.isSome)

/-- All fields of a `Feature` in declaration order. -/
def Feature.fieldsDump (f : Feature) : List (String × Option MetaValue) :=
  [("name", some (MetaValue.str f.name)),
   ("status", some (MetaValue.str f.status.value)),
   ("priority", (f.priority.map fun pr => MetaValue.str pr.value)),
   ("release_version", f.release_version.map MetaValue.str),
   ("description", f.description.map MetaValue.str)]

/-- Python `feature.model_dump(exclude_none=True)`. -/
def Feature.model_dump_exclude_none (f : Feature) : List (String × Option MetaValue) :=
  f.fieldsDump.filter (fun kv => kv.2.isSome)

/-- All fields of a `Component` in declaration order. -/
def Component.fieldsDump (c : Component) : List (String × Option MetaValue) :=
  [("name", some (MetaValue.str c.name)),
   ("type", (c.type.map fun t => MetaValue.str t.value)),
   ("path", c.path.map MetaValue.str),
   ("language", c.language.map MetaValue.str),
   ("dependencies", some (MetaValue.strList c.dependencies)),
   ("description", c.description.map MetaValue.str)]

/-- Python `component.model_dump(exclude_none=True)`. -/
def Component.model_dump_exclude_none (c : Component) : List (String × Option MetaValue) :=
  c.fieldsDump.filter (fun kv => kv.2.isSome)

/-- One awaited call to the external graph-store client. -/
inductive GraphCall
  | add_entity (name : String) (entity_type : String) (summary : Option String)
      (metadata : List (String × Option MetaValue))
  | add_relationship (source_entity : String) (target_entity : String)
      (relationship_type : String) (fact : String)
  deriving DecidableEq, Repr

/-- Trace of `populate_project`: one `add_entity` call for the project. -/
def populate_project (project : SoftwareProject) : List GraphCall :=
  [GraphCall.add_entity project.name "software_project" project.description
    project.model_dump_exclude_none]

/-- Trace of `populate_features`: per feature, an `add_entity` call followed
by a `has_feature` relationship from the project. -/
def populate_features (project_name : String) (features : List Feature) : List GraphCall :=
  features.flatMap fun feature =>
    [GraphCall.add_entity feature.name "feature" feature.description
       feature.model_dump_exclude_none,
     GraphCall.add_relationship project_name feature.name "has_feature"
       (project_name ++ " includes the " ++ feature.name ++ " feature")]

/-- Trace of `populate_components`: per component, an `add_entity` call
followed by a `has_component` relationship from the project. -/
def populate_components (project_name : String) (components : List Component) : List GraphCall :=
  components.flatMap fun component =>
    [GraphCall.add_entity component.name "component" component.description
       component.model_dump_exclude_none,
     GraphCall.add_relationship project_name component.name "has_component"
       (project_name ++ " contains the " ++ component.name ++ " component")]

/-- Inner loop of `add_component_dependencies` for one component: for each
`dep` in `component.dependencies` (order preserved), emit a `depends_on`
relationship iff `dep` is in `component_names`; otherwise skip silently.
Python tests `dep in component_names` against the set
`{c.name for c in components}`, which is string membership in the list of
names. -/
def componentDepCalls (component_names : List String) (component : Component) :
    List GraphCall :=
  component.dependencies.filterMap fun dep =>
    if dep ∈ component_names then
      some (GraphCall.add_relationship component.name dep "depends_on"
        (component.name ++ " depends on " ++ dep))
    else
      none

/-- Trace of `add_component_dependencies`: builds the name set, then runs
the nested loops over components (outer, input order) and their
dependencies (inner, stored order). -/
def add_component_dependencies (components : List Component) : List GraphCall :=
  let component_names := components.map Component.name
  components.flatMap (componentDepCalls component_names)

/-- The (source, target) pair of a `depends_on` graph call, if the call is a
relationship call. -/
def edgeOf : GraphCall → Option (String × String)
  | GraphCall.add_relationship s t _ _ => some (s, t)
  | _ => none

/-- The `depends_on` edges emitted by `add_component_dependencies`, as
(source name, target name) pairs in emission order. -/
def dependsEdges (components : List Component) : List (String × String) :=
  (add_component_dependencies components).filterMap edgeOf

/-- Convenience constructor for test components: only `name` and
`dependencies` set, the other fields left at their defaults. -/
def mkComp (name : String) (deps : List String) : Component :=
  { name := name, dependencies := deps }

/-- Scenario 1 of the spec: an external name produces nothing. -/
theorem scenario1_edges :
    dependsEdges [mkComp "A" ["B", "X"], mkComp "B" []] = [("A", "B")] := by
  decide

/-- Scenario 4 of the spec: no components, no edges. -/
theorem scenario4_edges : dependsEdges [] = [] := by decide

/-- The example population sequence of `main`: `populate_project`, then
`populate_features`, then `populate_components`, then
`add_component_dependencies`, all against the same project. -/
def populationSequence (project : SoftwareProject) (features : List Feature)
    (components : List Component) : List GraphCall :=
  populate_project project ++
  populate_features project.name features ++
  populate_components project.name components ++
  add_component_dependencies components

/-- Execute a trace of awaited calls, one at a time, against an external
client that fails exactly at the positions where `failsAt` is `true`
(positions count all calls of the run, starting at `i`). The script has no
`try`/`except`, so the first raised exception aborts the rest of the run:
the result is the list of calls written to the store before the failure,
and a flag recording whether the whole run completed. -/
def runCalls (failsAt : Nat → Bool) : Nat → List GraphCall → List GraphCall × Bool
  | _, [] => ([], true)
  | i, c :: cs =>
    if failsAt i then ([], false)
    else
      let rest := runCalls failsAt (i + 1) cs
      (c :: rest.1, rest.2)

/-- Scan a trace left to right, maintaining the names registered by
`add_entity` calls seen so far; check that every `add_relationship` call
references only names registered strictly earlier in the trace. -/
def checkEntitiesFirst (known : List String) : List GraphCall → Bool
  | [] => true
  | GraphCall.add_entity n _ _ _ :: rest => checkEntitiesFirst (n :: known) rest
  | GraphCall.add_relationship s t _ _ :: rest =>
    if s ∈ known ∧ t ∈ known then checkEntitiesFirst known rest else false

/-- Modelled from the spec (§4.1 and §8): the projector's output described
as nested accumulating loops — outer loop over the components in input
order, inner loop over each component's dependency list in stored order,
appending an edge `(component.name, dep)` whenever `dep` matches some
component name. Compared against `dependsEdges`, which is derived from the
source's `add_component_dependencies`. -/
def specProjectorEdges (components : List Component) : List (String × String) :=
  let names := components.map Component.name
  components.foldl
    (fun acc a =>
      a.dependencies.foldl
        (fun acc2 d => if d ∈ names then acc2 ++ [(a.name, d)] else acc2) acc)
    []

/-! Lemmas about the dependency projector -/

/-- The edges contributed by one component: its dependencies that match a
name in `names`, each paired with the component's name. -/
def edgesOf (names : List String) (c : Component) : List (String × String) :=
  (c.dependencies.filter (fun d => decide (d ∈ names))).map (fun d => (c.name, d))

theorem filterMap_edgeOf_componentDepCalls (names : List String) (c : Component) :
    (componentDepCalls names c).filterMap edgeOf = edgesOf names c := by
  unfold componentDepCalls edgesOf
  induction c.dependencies with
  | nil => rfl
  | cons d rest ih =>
    by_cases hd : d ∈ names <;>
      simp [List.filterMap_cons, List.filter_cons, hd, edgeOf, ih]

theorem dependsEdges_eq_flatMap (components : List Component) :
    dependsEdges components =
      components.flatMap (edgesOf (components.map Component.name)) := by
  unfold dependsEdges add_component_dependencies
  generalize components.map Component.name = names
  induction components with
  | nil => rfl
  | cons c rest ih =>
    simp only [List.flatMap_cons, List.filterMap_append,
      filterMap_edgeOf_componentDepCalls, ih]

theorem mem_edgesOf {names : List String} {c : Component} {x y : String} :
    (x, y) ∈ edgesOf names c ↔ x = c.name ∧ y ∈ c.dependencies ∧ y ∈ names := by
  simp only [edgesOf, List.mem_map, List.mem_filter, decide_eq_true_eq,
    Prod.mk.injEq]
  constructor
  · rintro ⟨d, ⟨hdep, hname⟩, hx, hy⟩
    exact ⟨hx.symm, hy ▸ hdep, hy ▸ hname⟩
  · rintro ⟨hx, hdep, hname⟩
    exact ⟨y, ⟨hdep, hname⟩, hx.symm, rfl⟩

theorem mem_dependsEdges {components : List Component} {x y : String} :
    (x, y) ∈ dependsEdges components ↔
      ∃ a ∈ components, x = a.name ∧ y ∈ a.dependencies ∧
        y ∈ components.map Component.name := by
  rw [dependsEdges_eq_flatMap]
  simp only [List.mem_flatMap, mem_edgesOf]

/-- Names are injective on a component list whose name list has no
duplicates. -/
theorem name_inj_of_nodup :
    ∀ {C : List Component}, (C.map Component.name).Nodup →
      ∀ {a b : Component}, a ∈ C → b ∈ C → a.name = b.name → a = b := by
  intro C
  induction C with
  | nil => intro _ a b ha; cases ha
  | cons c rest ih =>
    intro hnd a b ha hb hab
    rw [List.map_cons, List.nodup_cons] at hnd
    rcases List.mem_cons.mp ha with rfl | ha' <;>
      rcases List.mem_cons.mp hb with rfl | hb'
    · rfl
    · exact absurd (hab ▸ List.mem_map_of_mem Component.name hb') hnd.1
    · exact absurd (hab ▸ List.mem_map_of_mem Component.name ha') hnd.1
    · exact ih hnd.2 ha' hb' hab

theorem foldl_dep_append (names : List String) (nm : String) :
    ∀ (deps : List String) (acc : List (String × String)),
      deps.foldl (fun acc2 d => if d ∈ names then acc2 ++ [(nm, d)] else acc2) acc =
        acc ++ (deps.filter (fun d => decide (d ∈ names))).map (fun d => (nm, d)) := by
  intro deps
  induction deps with
  | nil => intro acc; simp
  | cons d rest ih =>
    intro acc
    by_cases hd : d ∈ names <;> simp [List.filter_cons, hd, ih, List.append_assoc]

theorem foldl_comp_append (names : List String) :
    ∀ (l : List Component) (acc : List (String × String)),
      l.foldl
          (fun acc a =>
            a.dependencies.foldl
              (fun acc2 d => if d ∈ names then acc2 ++ [(a.name, d)] else acc2) acc)
          acc =
        acc ++ l.flatMap (edgesOf names) := by
  intro l
  induction l with
  | nil => intro acc; simp
  | cons c rest ih =>
    intro acc
    rw [List.foldl_cons, foldl_dep_append, ih]
    simp [edgesOf, List.flatMap_cons, List.append_assoc]

/-! Claim theorems -/

/-- C1: for components `C` with unique names, the projector emits an edge
`(a.name, y)` tagged `depends_on` iff `y` occurs in `a.dependencies` and
some member `b` of `C` has `b.name = y` (exact, case-sensitive string
equality); a dependency string matching no component name produces no
edge (and, the traces being total, no error). -/
theorem dependsOn_edge_iff (C : List Component)
    (hnd : (C.map Component.name).Nodup) (a : Component) (ha : a ∈ C)
    (y : String) :
    (a.name, y) ∈ dependsEdges C ↔
      y ∈ a.dependencies ∧ ∃ b ∈ C, b.name = y := by
  rw [mem_dependsEdges]
  constructor
  · rintro ⟨a', ha', hx, hdep, hname⟩
    obtain rfl : a' = a := name_inj_of_nodup hnd ha' ha hx.symm
    obtain ⟨b, hb, hbn⟩ := List.mem_map.mp hname
    exact ⟨hdep, b, hb, hbn⟩
  · rintro ⟨hdep, b, hb, hbn⟩
    exact ⟨a, ha, rfl, hdep, hbn ▸ List.mem_map_of_mem Component.name hb⟩

theorem dependsOn_edge_iff_witness :
    (([mkComp "A" ["B", "X"], mkComp "B" []].map Component.name).Nodup) ∧
      ("A", "B") ∈ dependsEdges [mkComp "A" ["B", "X"], mkComp "B" []] :=
  ⟨by decide,
    (dependsOn_edge_iff [mkComp "A" ["B", "X"], mkComp "B" []] (by decide)
      (mkComp "A" ["B", "X"]) (by decide) "B").mpr (by decide)⟩

/-- C2: the projector's emission order is deterministic (it is a function
of its input) and equals the order of the nested loops described by the
spec: outer loop over the components in input order, inner loop over each
component's dependency list in stored order. -/
theorem dependsEdges_eq_specProjectorEdges (C : List Component) :
    dependsEdges C = specProjectorEdges C := by
  rw [dependsEdges_eq_flatMap]
  simp only [specProjectorEdges, foldl_comp_append, List.nil_append]

theorem count_edgesOf_ne {names : List String} {c : Component} {x d : String}
    (h : x ≠ c.name) : (edgesOf names c).count (x, d) = 0 := by
  refine List.count_eq_zero.mpr fun hmem => h (mem_edgesOf.mp hmem).1

theorem count_map_pair (nm d : String) :
    ∀ (l : List String), (l.map fun x => (nm, x)).count (nm, d) = l.count d := by
  intro l
  induction l with
  | nil => rfl
  | cons x rest ih =>
    by_cases hx : x = d
    · subst hx
      rw [List.map_cons, List.count_cons_self, List.count_cons_self, ih]
    · rw [List.map_cons,
        List.count_cons_of_ne (fun hc => hx (congrArg Prod.snd hc).symm),
        List.count_cons_of_ne (fun hc => hx hc.symm), ih]

theorem count_edgesOf_self {names : List String} {c : Component} {d : String}
    (hd : d ∈ names) :
    (edgesOf names c).count (c.name, d) = c.dependencies.count d := by
  unfold edgesOf
  rw [count_map_pair]
  exact List.count_filter (by simpa using hd)

theorem count_flatMap_edgesOf_zero {names : List String} {x d : String} :
    ∀ {l : List Component}, (∀ c ∈ l, x ≠ c.name) →
      (l.flatMap (edgesOf names)).count (x, d) = 0 := by
  intro l
  induction l with
  | nil => intro _; rfl
  | cons c rest ih =>
    intro h
    rw [List.flatMap_cons, List.count_append,
      count_edgesOf_ne (h c (List.mem_cons_self c rest)),
      ih fun c' hc' => h c' (List.mem_cons_of_mem c hc')]

theorem count_flatMap_edgesOf {names : List String} {d : String}
    (hd : d ∈ names) :
    ∀ {l : List Component}, (l.map Component.name).Nodup →
      ∀ {a : Component}, a ∈ l →
        (l.flatMap (edgesOf names)).count (a.name, d) = a.dependencies.count d := by
  intro l
  induction l with
  | nil => intro _ a ha; cases ha
  | cons c rest ih =>
    intro hnd a ha
    rw [List.map_cons, List.nodup_cons] at hnd
    rw [List.flatMap_cons, List.count_append]
    rcases List.mem_cons.mp ha with rfl | ha'
    · rw [count_edgesOf_self hd, count_flatMap_edgesOf_zero
        (fun c' hc' heq => hnd.1 (by
          rw [heq]; exact List.mem_map_of_mem Component.name hc')),
        Nat.add_zero]
    · have hne : a.name ≠ c.name := fun heq =>
        hnd.1 (heq ▸ List.mem_map_of_mem Component.name ha')
      rw [count_edgesOf_ne hne, ih hnd.2 ha', Nat.zero_add]

/-- C3: the projector deduplicates nothing — for components with unique
names, the number of `(a.name, d)` edges emitted equals the number of
occurrences of the internal name `d` in `a.dependencies`; and on the
concrete input of Scenario 3 the output is exactly the duplicated edge
pair. -/
theorem dependsOn_no_dedup :
    (∀ (C : List Component), (C.map Component.name).Nodup →
      ∀ a ∈ C, ∀ d ∈ C.map Component.name,
        (dependsEdges C).count (a.name, d) = a.dependencies.count d) ∧
      dependsEdges [mkComp "A" ["B", "B"], mkComp "B" []] =
        [("A", "B"), ("A", "B")] := by
  constructor
  · intro C hnd a ha d hd
    rw [dependsEdges_eq_flatMap]
    exact count_flatMap_edgesOf hd hnd ha
  · decide

theorem dependsOn_no_dedup_witness :
    (([mkComp "A" ["B", "B"], mkComp "B" []].map Component.name).Nodup) ∧
      (dependsEdges [mkComp "A" ["B", "B"], mkComp "B" []]).count ("A", "B") = 2 :=
  ⟨by decide,
    (dependsOn_no_dedup.1 [mkComp "A" ["B", "B"], mkComp "B" []] (by decide)
      (mkComp "A" ["B", "B"]) (by decide) "B" (by decide)).trans (by decide)⟩

/-- C4: self-loops are not filtered — any component whose own name occurs
in its own dependency list yields a self-edge, and on the concrete input
of Scenario 2 the output is exactly the self-loop. -/
theorem dependsOn_self_loop :
    (∀ (C : List Component), ∀ c ∈ C, c.name ∈ c.dependencies →
      (c.name, c.name) ∈ dependsEdges C) ∧
      dependsEdges [mkComp "A" ["A"]] = [("A", "A")] := by
  constructor
  · intro C c hc hdep
    exact mem_dependsEdges.mpr
      ⟨c, hc, rfl, hdep, List.mem_map_of_mem Component.name hc⟩
  · decide

theorem dependsOn_self_loop_witness :
    ((mkComp "A" ["A"]).name ∈ (mkComp "A" ["A"]).dependencies) ∧
      ("A", "A") ∈ dependsEdges [mkComp "A" ["A"]] :=
  ⟨by decide,
    dependsOn_self_loop.1 [mkComp "A" ["A"]] (mkComp "A" ["A"]) (by decide)
      (by decide)⟩

theorem runCalls_firstFail (failsAt : Nat → Bool) :
    ∀ (l : List GraphCall) (i k : Nat),
      (∀ j, j < k → failsAt (i + j) = false) → failsAt (i + k) = true →
      k < l.length →
      runCalls failsAt i l = (l.take k, false) := by
  intro l
  induction l with
  | nil => intro i k _ _ hlen; exact absurd hlen (Nat.not_lt_zero k)
  | cons c cs ih =>
    intro i k hbefore hk hlen
    cases k with
    | zero =>
      have hi : failsAt i = true := by simpa using hk
      simp [runCalls, hi]
    | succ k' =>
      have h0 : failsAt i = false := by simpa using hbefore 0 (Nat.succ_pos k')
      have hrec := ih (i + 1) k'
        (fun j hj => by
          have h := hbefore (j + 1) (Nat.succ_lt_succ hj)
          simpa [show i + (j + 1) = i + 1 + j by omega] using h)
        (by simpa [show i + (k' + 1) = i + 1 + k' by omega] using hk)
        (Nat.lt_of_succ_lt_succ hlen)
      simp [runCalls, h0, hrec]

/-- C5: in a run of the orchestration sequence where the external client
first fails at call position `k` (within the sequence), the failure is not
caught: the run does not complete, the calls written to the store are
exactly the `k` calls issued before the failure (no rollback), and no
subsequent call of the run is issued. -/
theorem populationSequence_failure_propagates (project : SoftwareProject)
    (features : List Feature) (components : List Component)
    (failsAt : Nat → Bool) (k : Nat)
    (hbefore : ∀ j, j < k → failsAt j = false) (hk : failsAt k = true)
    (hlen : k < (populationSequence project features components).length) :
    runCalls failsAt 0 (populationSequence project features components) =
      ((populationSequence project features components).take k, false) :=
  runCalls_firstFail failsAt _ 0 k
    (fun j hj => by simpa using hbefore j hj) (by simpa using hk) hlen

theorem populationSequence_failure_propagates_witness :
    ((fun j => decide (j = 1)) 1 = true) ∧
      runCalls (fun j => decide (j = 1)) 0
          (populationSequence { name := "P" } [{ name := "F" }] []) =
        ((populationSequence { name := "P" } [{ name := "F" }] []).take 1,
          false) :=
  ⟨by decide,
    populationSequence_failure_propagates { name := "P" } [{ name := "F" }] []
      (fun j => decide (j = 1)) 1
      (fun j hj => by
        have hj0 : j = 0 := Nat.lt_one_iff.mp hj
        subst hj0; rfl)
      (by decide) (by decide)⟩

theorem runCalls_noFail : ∀ (l : List GraphCall) (i : Nat),
    runCalls (fun _ => false) i l = (l, true) := by
  intro l
  induction l with
  | nil => intro i; rfl
  | cons c cs ih => intro i; simp [runCalls, ih]

/-- C7: the dependency projector is, in this embedding, a total pure
function of its input (its trace is fully determined by the component
list), and it raises no error of its own: whenever the external client
does not fail, the projector's run completes normally, its only effects
being the emitted `depends_on` calls. -/
theorem add_component_dependencies_no_own_error (components : List Component) :
    runCalls (fun _ => false) 0 (add_component_dependencies components) =
      (add_component_dependencies components, true) :=
  runCalls_noFail (add_component_dependencies components) 0

/-- Every call in the trace of `add_component_dependencies` is a
`depends_on` relationship from a component to one of its internal
dependency names. -/
theorem mem_add_component_dependencies {components : List Component}
    {call : GraphCall} (h : call ∈ add_component_dependencies components) :
    ∃ c ∈ components, ∃ d, d ∈ c.dependencies ∧
      d ∈ components.map Component.name ∧
      call = GraphCall.add_relationship c.name d "depends_on"
        (c.name ++ " depends on " ++ d) := by
  simp only [add_component_dependencies, componentDepCalls, List.mem_flatMap,
    List.mem_filterMap] at h
  obtain ⟨c, hc, d, hd, heq⟩ := h
  by_cases hmem : d ∈ components.map Component.name
  · rw [if_pos hmem] at heq
    exact ⟨c, hc, d, hd, hmem, (Option.some.inj heq).symm⟩
  · rw [if_neg hmem] at heq
    exact absurd heq (by simp)

/-- C8: the dependency-projection pass issues only `add_relationship`
calls, all with relationship type `depends_on`; it never issues an
`add_entity` call, so it creates or modifies no entity in the external
store. -/
theorem add_component_dependencies_only_depends_on
    (components : List Component) (call : GraphCall)
    (h : call ∈ add_component_dependencies components) :
    ∃ s t f, call = GraphCall.add_relationship s t "depends_on" f := by
  obtain ⟨c, _, d, _, _, heq⟩ := mem_add_component_dependencies h
  exact ⟨c.name, d, c.name ++ " depends on " ++ d, heq⟩

theorem add_component_dependencies_only_depends_on_witness :
    ∃ s t f, GraphCall.add_relationship "A" "A" "depends_on" "A depends on A" =
      GraphCall.add_relationship s t "depends_on" f :=
  add_component_dependencies_only_depends_on [mkComp "A" ["A"]]
    (GraphCall.add_relationship "A" "A" "depends_on" "A depends on A")
    (by decide)

/-- The entity names registered after scanning a trace, newest first,
starting from `known`. -/
def knownAfter (known : List String) : List GraphCall → List String
  | [] => known
  | GraphCall.add_entity n _ _ _ :: rest => knownAfter (n :: known) rest
  | GraphCall.add_relationship _ _ _ _ :: rest => knownAfter known rest

theorem checkEntitiesFirst_append :
    ∀ (l1 l2 : List GraphCall) (known : List String),
      checkEntitiesFirst known (l1 ++ l2) =
        (checkEntitiesFirst known l1 && checkEntitiesFirst (knownAfter known l1) l2) := by
  intro l1
  induction l1 with
  | nil => intro l2 known; simp [checkEntitiesFirst, knownAfter]
  | cons c rest ih =>
    intro l2 known
    cases c with
    | add_entity n et s md =>
      simp only [List.cons_append, checkEntitiesFirst, knownAfter]
      exact ih l2 (n :: known)
    | add_relationship s t rt f =>
      simp only [List.cons_append, checkEntitiesFirst, knownAfter]
      by_cases h : s ∈ known ∧ t ∈ known
      · rw [if_pos h, if_pos h]
        exact ih l2 known
      · rw [if_neg h, if_neg h, Bool.false_and]

theorem knownAfter_append :
    ∀ (l1 l2 : List GraphCall) (known : List String),
      knownAfter known (l1 ++ l2) = knownAfter (knownAfter known l1) l2 := by
  intro l1
  induction l1 with
  | nil => intro l2 known; rfl
  | cons c rest ih =>
    intro l2 known
    cases c with
    | add_entity n et s md => exact ih l2 (n :: known)
    | add_relationship s t rt f => exact ih l2 known

theorem subset_knownAfter :
    ∀ (l : List GraphCall) (known : List String) (s : String),
      s ∈ known → s ∈ knownAfter known l := by
  intro l
  induction l with
  | nil => intro known s hs; exact hs
  | cons c rest ih =>
    intro known s hs
    cases c with
    | add_entity n et su md => exact ih (n :: known) s (List.mem_cons_of_mem n hs)
    | add_relationship a b rt f => exact ih known s hs

theorem check_populate_features (pn : String) :
    ∀ (fs : List Feature) (known : List String), pn ∈ known →
      checkEntitiesFirst known (populate_features pn fs) = true := by
  intro fs
  induction fs with
  | nil => intro known _; rfl
  | cons f rest ih =>
    intro known hpn
    show checkEntitiesFirst known
      (GraphCall.add_entity f.name "feature" f.description
          f.model_dump_exclude_none ::
        GraphCall.add_relationship pn f.name "has_feature"
          (pn ++ " includes the " ++ f.name ++ " feature") ::
        populate_features pn rest) = true
    simp only [checkEntitiesFirst]
    rw [if_pos ⟨List.mem_cons_of_mem f.name hpn, List.mem_cons_self f.name known⟩]
    exact ih (f.name :: known) (List.mem_cons_of_mem f.name hpn)

theorem check_populate_components (pn : String) :
    ∀ (cs : List Component) (known : List String), pn ∈ known →
      checkEntitiesFirst known (populate_components pn cs) = true := by
  intro cs
  induction cs with
  | nil => intro known _; rfl
  | cons c rest ih =>
    intro known hpn
    show checkEntitiesFirst known
      (GraphCall.add_entity c.name "component" c.description
          c.model_dump_exclude_none ::
        GraphCall.add_relationship pn c.name "has_component"
          (pn ++ " contains the " ++ c.name ++ " component") ::
        populate_components pn rest) = true
    simp only [checkEntitiesFirst]
    rw [if_pos ⟨List.mem_cons_of_mem c.name hpn, List.mem_cons_self c.name known⟩]
    exact ih (c.name :: known) (List.mem_cons_of_mem c.name hpn)

theorem names_in_knownAfter_components (pn : String) :
    ∀ (cs : List Component) (known : List String) (c : Component), c ∈ cs →
      c.name ∈ knownAfter known (populate_components pn cs) := by
  intro cs
  induction cs with
  | nil => intro known c hc; cases hc
  | cons c0 rest ih =>
    intro known c hc
    show c.name ∈ knownAfter known
      (GraphCall.add_entity c0.name "component" c0.description
          c0.model_dump_exclude_none ::
        GraphCall.add_relationship pn c0.name "has_component"
          (pn ++ " contains the " ++ c0.name ++ " component") ::
        populate_components pn rest)
    rcases List.mem_cons.mp hc with heq | hc'
    · subst heq
      exact subset_knownAfter (populate_components pn rest) (c.name :: known)
        c.name (List.mem_cons_self c.name known)
    · exact ih (c0.name :: known) c hc'

theorem check_rel_calls :
    ∀ (l : List GraphCall) (known : List String),
      (∀ call ∈ l, ∃ s t rt f, call = GraphCall.add_relationship s t rt f ∧
        s ∈ known ∧ t ∈ known) →
      checkEntitiesFirst known l = true := by
  intro l
  induction l with
  | nil => intro known _; rfl
  | cons c rest ih =>
    intro known h
    obtain ⟨s, t, rt, f, heq, hs, ht⟩ := h c (List.mem_cons_self c rest)
    subst heq
    simp only [checkEntitiesFirst]
    rw [if_pos ⟨hs, ht⟩]
    exact ih known fun call hcall => h call (List.mem_cons_of_mem _ hcall)

/-- C6: in the population sequence (`populate_project`, then
`populate_features`, then `populate_components`, then
`add_component_dependencies`), every name used as source or target of an
`add_relationship` call has been registered by an earlier `add_entity`
call of the same run. -/
theorem populationSequence_entities_precede_relationships
    (project : SoftwareProject) (features : List Feature)
    (components : List Component) :
    checkEntitiesFirst [] (populationSequence project features components) = true := by
  unfold populationSequence
  simp only [checkEntitiesFirst_append, knownAfter_append]
  have h1 : checkEntitiesFirst [] (populate_project project) = true := rfl
  have hk1 : knownAfter [] (populate_project project) = [project.name] := rfl
  have hpn1 : project.name ∈ knownAfter [] (populate_project project) := by
    rw [hk1]; exact List.mem_cons_self project.name []
  have h2 := check_populate_features project.name features _ hpn1
  have hpn2 : project.name ∈
      knownAfter (knownAfter [] (populate_project project))
        (populate_features project.name features) :=
    subset_knownAfter _ _ project.name hpn1
  have h3 := check_populate_components project.name components _ hpn2
  have hnames : ∀ c ∈ components, c.name ∈
      knownAfter (knownAfter (knownAfter [] (populate_project project))
        (populate_features project.name features))
        (populate_components project.name components) :=
    fun c hc => names_in_knownAfter_components project.name components _ c hc
  have h4 : checkEntitiesFirst
      (knownAfter (knownAfter (knownAfter [] (populate_project project))
        (populate_features project.name features))
        (populate_components project.name components))
      (add_component_dependencies components) = true := by
    refine check_rel_calls _ _ fun call hcall => ?_
    obtain ⟨c, hc, d, hd, hdn, heq⟩ := mem_add_component_dependencies hcall
    obtain ⟨c', hc', hc'n⟩ := List.mem_map.mp hdn
    exact ⟨c.name, d, "depends_on", c.name ++ " depends on " ++ d, heq,
      hnames c hc, hc'n ▸ hnames c' hc'⟩
  rw [h1, h2, h3, h4]
  rfl

/-- The metadata of a call is free of `None` values whenever the call is an
`add_entity` call. -/
def entityMetadataOk (call : GraphCall) : Prop :=
  ∀ (n et : String) (s : Option String) (md : List (String × Option MetaValue)),
    call = GraphCall.add_entity n et s md → ∀ kv ∈ md, kv.2.isSome = true

theorem mem_filter_isSome {l : List (String × Option MetaValue)}
    {kv : String × Option MetaValue}
    (h : kv ∈ l.filter fun kv' => kv'.2.isSome) : kv.2.isSome = true :=
  (List.mem_filter.mp h).2

theorem entityMetadataOk_populate_project {project : SoftwareProject}
    {call : GraphCall} (h : call ∈ populate_project project) :
    entityMetadataOk call := by
  rcases List.mem_cons.mp h with heq | habs
  · intro n et s md hmd kv hkv
    rw [heq] at hmd
    cases hmd
    exact mem_filter_isSome hkv
  · cases habs

theorem entityMetadataOk_populate_features {pn : String} {fs : List Feature}
    {call : GraphCall} (h : call ∈ populate_features pn fs) :
    entityMetadataOk call := by
  obtain ⟨f, _, hf⟩ := List.mem_flatMap.mp h
  rcases List.mem_cons.mp hf with heq | hf'
  · intro n et s md hmd kv hkv
    rw [heq] at hmd
    cases hmd
    exact mem_filter_isSome hkv
  · rcases List.mem_cons.mp hf' with heq | habs
    · intro n et s md hmd kv hkv
      rw [heq] at hmd
      cases hmd
    · cases habs

theorem entityMetadataOk_populate_components {pn : String}
    {cs : List Component} {call : GraphCall}
    (h : call ∈ populate_components pn cs) : entityMetadataOk call := by
  obtain ⟨c, _, hc⟩ := List.mem_flatMap.mp h
  rcases List.mem_cons.mp hc with heq | hc'
  · intro n et s md hmd kv hkv
    rw [heq] at hmd
    cases hmd
    exact mem_filter_isSome hkv
  · rcases List.mem_cons.mp hc' with heq | habs
    · intro n et s md hmd kv hkv
      rw [heq] at hmd
      cases hmd
    · cases habs

/-- C9: in the population sequence, every metadata mapping passed to an
`add_entity` call contains no key whose value is `None` — optional fields
left unset are omitted entirely (`model_dump` with `exclude_none=True`). -/
theorem populationSequence_metadata_no_none (project : SoftwareProject)
    (features : List Feature) (components : List Component) (call : GraphCall)
    (hcall : call ∈ populationSequence project features components)
    (n et : String) (s : Option String) (md : List (String × Option MetaValue))
    (heq : call = GraphCall.add_entity n et s md) :
    ∀ kv ∈ md, kv.2.isSome = true := by
  unfold populationSequence at hcall
  rcases List.mem_append.mp hcall with h123 | h4
  · rcases List.mem_append.mp h123 with h12 | h3
    · rcases List.mem_append.mp h12 with h1 | h2
      · exact entityMetadataOk_populate_project h1 n et s md heq
      · exact entityMetadataOk_populate_features h2 n et s md heq
    · exact entityMetadataOk_populate_components h3 n et s md heq
  · obtain ⟨c, _, d, _, _, hrel⟩ := mem_add_component_dependencies h4
    rw [heq] at hrel
    cases hrel

theorem populationSequence_metadata_no_none_witness :
    ((("name", some (MetaValue.str "P")) : String × Option MetaValue).2.isSome
      = true) :=
  populationSequence_metadata_no_none { name := "P" } [] []
    (GraphCall.add_entity "P" "software_project" none
      ({ name := "P" } : SoftwareProject).model_dump_exclude_none)
    (by decide) "P" "software_project" none
    ({ name := "P" } : SoftwareProject).model_dump_exclude_none rfl
    ("name", some (MetaValue.str "P")) (by decide)

/-- C10: constructors supply the script's defaults — a `SoftwareProject`
built without a status is `active`, a `Feature` built without a status is
`planned`, and a `Component` built without a `dependencies` field has an
empty dependency list, so the projector's inner loop emits no edge with it
as source. -/
theorem record_constructor_defaults (n : String) :
    ({ name := n } : SoftwareProject).status = ProjectStatus.ACTIVE ∧
    ({ name := n } : Feature).status = FeatureStatus.PLANNED ∧
    ({ name := n } : Component).dependencies = [] ∧
    ∀ names : List String, componentDepCalls names { name := n } = [] :=
  ⟨rfl, rfl, rfl, fun _ => rfl⟩

end AgentForgeExample
